import Mathlib

/-!
Shallow embedding of the CourtCaptain voting application (src/main.py).

The SQLite tables are embedded as Lean lists of rows in insertion (rowid)
order; Python dicts are embedded as insertion-ordered association lists;
the stable Python sorts (`sorted`, `list.sort()`) are embedded as
`List.insertionSort`, which is likewise stable.  Python string operations
are embedded as structurally recursive functions on the character list of
a `String`: `str.strip()` is `trimStr`, `str.lower()` is `toLowerStr`
(ASCII case folding, which covers every string the application compares),
the substring test `a in b` is `containsChars b.data a.data`, and string
comparison for `list.sort()` is code-point lexicographic order `strLE`.
-/

namespace CourtCaptain

/-- Embedding of Python `str.lower()` (ASCII case folding on each character). -/
def toLowerStr (s : String) : String := ⟨s.data.map Char.toLower⟩

/-- Embedding of Python `str.strip()`: drop leading and trailing whitespace. -/
def trimStr (s : String) : String :=
  ⟨((s.data.dropWhile Char.isWhitespace).reverse.dropWhile Char.isWhitespace).reverse⟩

/-- Code-point lexicographic comparison of character lists, the order Python
uses to compare strings. -/
def charLE : List Char → List Char → Bool
  | [], _ => true
  | _ :: _, [] => false
  | a :: as, b :: bs =>
    if a.toNat < b.toNat then true
    else if b.toNat < a.toNat then false
    else charLE as bs

/-- Embedding of Python string comparison `a <= b`. -/
def strLE (a b : String) : Bool := charLE a.data b.data

/-- Does `pat` occur at the start of `l`? (helper for the substring test). -/
def startsWithChars : List Char → List Char → Bool
  | [], _ => true
  | _ :: _, [] => false
  | a :: as, b :: bs => a = b && startsWithChars as bs

/-- Embedding of the Python substring test `pat in hay`. -/
def containsChars (hay pat : List Char) : Bool :=
  match hay with
  | [] => pat.isEmpty
  | _ :: t => startsWithChars pat hay || containsChars t pat

/-- Embedding of Python `sorted` / `list.sort()` on strings. -/
def sortStrings (l : List String) : List String :=
  List.insertionSort (fun a b => strLE a b = true) l

/-- `PREFERRED_COURTS` from main.py. -/
def PREFERRED_COURTS : List String := ["Court 1", "Court 2", "Court 3", "Court 4"]

/-- `ALL_COURTS` from main.py. -/
def ALL_COURTS : List String :=
  PREFERRED_COURTS ++ ["Court 5", "Court 6", "Court 7", "Outdoor A", "Outdoor B", "Other"]

/-- `DAYS` from main.py. -/
def DAYS : List String := ["Saturday", "Sunday"]

/-- A row of the `votes` table: `name TEXT PRIMARY KEY, day, court, ts`. -/
structure VoteRow where
  name : String
  day : String
  court : String
  ts : String
deriving Repr, DecidableEq

/-- A row of the `availability` table: `day, court, slot`. -/
structure AvailRow where
  day : String
  court : String
  slot : String
deriving Repr, DecidableEq

/-- `pref_rank` from main.py: index in `PREFERRED_COURTS` for preferred courts,
otherwise `100 + index in ALL_COURTS`.  (On a court in neither list Python
raises `ValueError`; such a court never reaches `pref_rank` in the
application, and the embedding then yields `100 + length ALL_COURTS`.) -/
def pref_rank (court : String) : Nat :=
  if court ∈ PREFERRED_COURTS then PREFERRED_COURTS.indexOf court
  else 100 + ALL_COURTS.indexOf court

/-- `day_rank` from main.py. -/
def day_rank (day : String) : Nat := if day = "Saturday" then 0 else 1

/-! ### The tally engine (`tally_with_names` in main.py) -/

/-- The value of one entry of the `buckets` dict in `tally_with_names`. -/
structure BucketInfo where
  votes : Nat
  names : List String
deriving Repr, DecidableEq

/-- One entry of the insertion-ordered `buckets` dict: key `(day, court)`
with its vote count and voter names. -/
abbrev Bucket := (String × String) × BucketInfo

/-- Adding one element to the insertion-ordered set `unique_players`
(`set.add` on a Python set, embedded as a duplicate-free list). -/
def insertSet (l : List String) (s : String) : List String :=
  if s ∈ l then l else l ++ [s]

/-- The bucket update in the loop body of `tally_with_names`: create the
`(day, court)` bucket if absent (at the end, in dict insertion order),
then increment its count and append the voter name. -/
def addVote : List Bucket → (String × String) → String → List Bucket
  | [], key, nm => [(key, ⟨1, [nm]⟩)]
  | b :: rest, key, nm =>
    if b.1 = key then (b.1, ⟨b.2.votes + 1, b.2.names ++ [nm]⟩) :: rest
    else b :: addVote rest key nm

/-- One iteration of the row loop in `tally_with_names`: skip rows whose
stripped name is empty, otherwise record the lower-cased name in
`unique_players` and the vote in `buckets`. -/
def tallyStep (st : List String × List Bucket) (r : VoteRow) : List String × List Bucket :=
  let nm := trimStr r.name
  if nm = "" then st
  else (insertSet st.1 (toLowerStr nm), addVote st.2 (r.day, r.court) nm)

/-- The `unique_players` component of `tallyStep` on its own. -/
def playerStep (p : List String) (r : VoteRow) : List String :=
  if trimStr r.name = "" then p else insertSet p (toLowerStr (trimStr r.name))

/-- The `buckets` component of `tallyStep` on its own. -/
def bucketStep (b : List Bucket) (r : VoteRow) : List Bucket :=
  if trimStr r.name = "" then b else addVote b (r.day, r.court) (trimStr r.name)

/-- The sort key of `ranked` in `tally_with_names` is the ascending
lexicographic order on `(-votes, pref_rank court, day_rank day)`;
`bucketLE a b` says that key of `a` is at most that of `b`. -/
def bucketLE (a b : Bucket) : Prop :=
  b.2.votes < a.2.votes ∨
    (a.2.votes = b.2.votes ∧
      (pref_rank a.1.2 < pref_rank b.1.2 ∨
        (pref_rank a.1.2 = pref_rank b.1.2 ∧ day_rank a.1.1 ≤ day_rank b.1.1)))

instance : DecidableRel bucketLE := fun a b => by
  unfold bucketLE; infer_instance

instance : IsTotal Bucket bucketLE :=
  ⟨by intro a b; unfold bucketLE; omega⟩

instance : IsTrans Bucket bucketLE :=
  ⟨by intro a b c; unfold bucketLE; omega⟩

/-- One entry of the `counts` list (also the shape of `top`): the dict
`{"day": d, "court": c, "votes": v, "names": sorted(names)}`. -/
structure ChoiceInfo where
  day : String
  court : String
  votes : Nat
  names : List String
deriving Repr, DecidableEq

/-- Rendering one ranked bucket as a `counts` entry. -/
def mkChoice (b : Bucket) : ChoiceInfo :=
  ⟨b.1.1, b.1.2, b.2.votes, sortStrings b.2.names⟩

/-- The dict returned by `tally_with_names`. -/
structure TallySummary where
  total_players : Nat
  counts : List ChoiceInfo
  top_choice : Option ChoiceInfo
  booking_possible : Bool
deriving Repr, DecidableEq

/-- `tally_with_names` from main.py, over the current rows of the `votes`
table. -/
def tally_with_names (st : List VoteRow) : TallySummary :=
  let acc := st.foldl tallyStep ([], [])
  let ranked := List.insertionSort bucketLE acc.2
  { total_players := acc.1.length
    counts := ranked.map mkChoice
    top_choice := ranked.head?.map mkChoice
    booking_possible := decide (4 ≤ acc.1.length) }

/-! ### Vote submission (`home`, POST branch) -/

/-- The two responses of the POST branch of `home`: a flash error plus a
redirect back to the vote form, or a success flash plus a redirect to the
results page. -/
inductive PollResponse where
  | errorHome
  | successResults
deriving Repr, DecidableEq

/-- The SQL upsert `INSERT ... ON CONFLICT(name) DO UPDATE SET day, court, ts`:
replace the row with the same (exact) primary-key name in place, else append. -/
def upsertVote (store : List VoteRow) (r : VoteRow) : List VoteRow :=
  if store.any (fun v => v.name = r.name) then
    store.map (fun v => if v.name = r.name then r else v)
  else store ++ [r]

/-- The POST branch of `home` from main.py: strip the name, validate
name/day/court, and on success upsert the vote keyed by the stripped name. -/
def home_post (store : List VoteRow) (rawName day court ts : String) :
    List VoteRow × PollResponse :=
  let name := trimStr rawName
  if name = "" ∨ day ∉ DAYS ∨ court ∉ ALL_COURTS then (store, .errorHome)
  else (upsertVote store ⟨name, day, court, ts⟩, .successResults)

/-! ### Booking handoff (`book_court`) -/

/-- The two responses of `book_court`: a 302 redirect to the booking site,
or a flash error plus a redirect to the results page. -/
inductive BookResponse where
  | redirectTo (target : String)
  | errorResults
deriving Repr, DecidableEq

/-- `book_court` from main.py: strip day and court, revalidate them, and
redirect to the booking URL with `day` and `court` appended, using `&` when
the base URL already contains `?` and `?` otherwise. -/
def book_court (bookingUrl rawDay rawCourt : String) : BookResponse :=
  let day := trimStr rawDay
  let court := trimStr rawCourt
  if day ∉ DAYS ∨ court ∉ ALL_COURTS then .errorResults
  else
    let sep := if containsChars bookingUrl.data ['?'] then "&" else "?"
    .redirectTo (bookingUrl ++ sep ++ "day=" ++ day ++ "&court=" ++ court)

/-! ### PIN-gated operations (`confirm_reset`, `admin_availability_clear`) -/

/-- The persistent state of the application: the `votes` and `availability`
tables. -/
structure AppState where
  votes : List VoteRow
  availability : List AvailRow
deriving Repr, DecidableEq

/-- `clear_all_availability` from main.py. -/
def clear_all_availability (st : AppState) : AppState :=
  { st with availability := [] }

/-- The state effect of `confirm_reset` from main.py: with the wrong PIN,
flash an error and change nothing; with the right PIN, delete all votes.
(Both branches respond with a flash message and a redirect.) -/
def confirm_reset (resetPin pin : String) (st : AppState) : AppState :=
  if pin ≠ resetPin then st else { st with votes := [] }

/-- The state effect of `admin_availability_clear` from main.py: with the
wrong PIN, flash an error and change nothing; with the right PIN, clear the
availability table. -/
def admin_availability_clear (resetPin pin : String) (st : AppState) : AppState :=
  if pin ≠ resetPin then st else clear_all_availability st

/-! ### Availability store operations -/

/-- The state effect of `admin_availability_post` from main.py: strip the
three fields, validate them, and insert the (day, court, slot) row only if
it is not already present. -/
def admin_availability_post (st : List AvailRow) (rawDay rawCourt rawSlot : String) :
    List AvailRow :=
  let day := trimStr rawDay
  let court := trimStr rawCourt
  let slot := trimStr rawSlot
  if day ∉ DAYS ∨ court ∉ ALL_COURTS ∨ slot = "" then st
  else if (⟨day, court, slot⟩ : AvailRow) ∈ st then st
  else st ++ [⟨day, court, slot⟩]

/-- The rows inserted by the loop body of `bulk_upsert_availability`:
for each mapping entry in order, skip courts outside `ALL_COURTS`, skip
empty slots, and insert a `(day, court, slot)` row for each remaining slot. -/
def validated_entries (day : String) (mapping : List (String × List String)) :
    List AvailRow :=
  mapping.foldl
    (fun acc p =>
      if p.1 ∈ ALL_COURTS then
        acc ++ (p.2.filter (fun s => s ≠ "")).map (fun s => (⟨day, p.1, s⟩ : AvailRow))
      else acc)
    []

/-- `bulk_upsert_availability` from main.py: for a valid day, delete that
day, then insert the validated entries of the mapping. -/
def bulk_upsert_availability (st : List AvailRow) (day : String)
    (mapping : List (String × List String)) : List AvailRow :=
  if day ∉ DAYS then st
  else st.filter (fun r => r.day ≠ day) ++ validated_entries day mapping

/-- The fuzzy court match in `ingest_availability`: the first label of
`ALL_COURTS` whose lower-cased text occurs inside the lower-cased incoming
key. -/
def match_label (k : String) : Option String :=
  ALL_COURTS.find? (fun L => containsChars (toLowerStr k).data (toLowerStr L).data)

/-- The slot normalisation in `ingest_availability`: strip each slot and
keep the nonempty ones, first occurrence only. -/
def norm_slots (v : List String) : List String :=
  v.foldl
    (fun acc s =>
      let t := trimStr s
      if t ≠ "" ∧ t ∉ acc then acc ++ [t] else acc)
    []

/-- Assignment `clean[label] = slots` on the insertion-ordered `clean` dict:
replace the value in place if the key exists, else append the pair. -/
def dict_set (m : List (String × List String)) (k : String) (v : List String) :
    List (String × List String) :=
  if m.any (fun p => p.1 = k) then m.map (fun p => if p.1 = k then (k, v) else p)
  else m ++ [(k, v)]

/-- The `clean` dict built by `ingest_availability` from the incoming
mapping (entries whose value is not a JSON list are skipped by an
`isinstance` check and are not representable here). -/
def clean_mapping (mapping : List (String × List String)) :
    List (String × List String) :=
  mapping.foldl
    (fun clean p =>
      match match_label p.1 with
      | none => clean
      | some label => dict_set clean label (norm_slots p.2))
    []

/-- The response of `ingest_availability`: 400 on an invalid day, else a
JSON body with the imported-slot and nonempty-court counts. -/
inductive IngestResponse where
  | invalidDay
  | ok (imported courts : Nat)
deriving Repr, DecidableEq

/-! ### Availability lookup (`get_availability_times`) -/

/-- The nested insertion-ordered dict returned by `get_availability_times`:
day to (court to slot list). -/
abbrev AvailTimes := List (String × List (String × List String))

/-- The initial `result` dict of `get_availability_times`: every day of
`DAYS` mapped to every court of `ALL_COURTS` with an empty slot list. -/
def initAvail : AvailTimes :=
  DAYS.map (fun d => (d, ALL_COURTS.map (fun c => (c, ([] : List String)))))

/-- The loop body of `get_availability_times`: if the day and court are
keys of the nested dict and the slot is not yet in their list, append it. -/
def updateAvail (res : AvailTimes) (day court slot : String) : AvailTimes :=
  res.map (fun p =>
    if p.1 = day then
      (p.1, p.2.map (fun q => if q.1 = court then (q.1, insertSet q.2 slot) else q))
    else p)

/-- One availability row folded into the nested dict. -/
def availStep (res : AvailTimes) (r : AvailRow) : AvailTimes :=
  updateAvail res r.day r.court r.slot

/-- `get_availability_times` from main.py: fold the availability rows into
the initial nested dict, then sort every slot list. -/
def get_availability_times (st : List AvailRow) : AvailTimes :=
  (st.foldl availStep initAvail).map
    (fun p => (p.1, p.2.map (fun q => (q.1, sortStrings q.2))))

/-- `ingest_availability` from main.py (state and response): strip the day,
reject days outside `DAYS` with a 400, else clean the mapping and bulk
replace that day, reporting slot and court counts read back from
`get_availability_times`. -/
def ingest_availability (st : List AvailRow) (rawDay : String)
    (mapping : List (String × List String)) : List AvailRow × IngestResponse :=
  let day := trimStr rawDay
  if day ∉ DAYS then (st, .invalidDay)
  else
    let st2 := bulk_upsert_availability st day (clean_mapping mapping)
    let after := (((get_availability_times st2).find? (fun p => p.1 = day)).map Prod.snd).getD []
    (st2, .ok (after.foldl (fun n q => n + q.2.length) 0)
              (after.foldl (fun n q => if q.2 ≠ [] then n + 1 else n) 0))

/-- The three exposed operations that write the availability table: the
manual slot add, the JSON import, and the (successful, PIN-checked) clear. -/
inductive AvailOp where
  | post (day court slot : String)
  | ingest (day : String) (mapping : List (String × List String))
  | clear

/-- Applying one availability operation to the availability table. -/
def apply_avail_op (st : List AvailRow) : AvailOp → List AvailRow
  | .post d c s => admin_availability_post st d c s
  | .ingest d m => (ingest_availability st d m).1
  | .clear => []

/-! ### Helper lemmas -/

lemma trimStr_mem_DAYS : ∀ d ∈ DAYS, trimStr d = d := by decide

lemma trimStr_mem_ALL_COURTS : ∀ c ∈ ALL_COURTS, trimStr c = c := by decide

/-- The SQL upsert keeps exactly the primary keys of the store, adding the
new name only when absent, and so preserves key uniqueness together with
the replace-or-append contract. -/
lemma upsertVote_spec (store : List VoteRow) (r : VoteRow)
    (hnd : (store.map VoteRow.name).Nodup) :
    ((upsertVote store r).map VoteRow.name).Nodup ∧
    r ∈ upsertVote store r ∧
    ∀ v ∈ upsertVote store r, v.name ≠ r.name → v ∈ store := by
  unfold upsertVote
  by_cases hex : store.any (fun v => v.name = r.name) = true
  · rw [if_pos hex]
    have hmapname : (store.map (fun v => if v.name = r.name then r else v)).map VoteRow.name
        = store.map VoteRow.name := by
      rw [List.map_map]
      refine List.map_congr_left ?_
      intro v _
      by_cases hv : v.name = r.name
      · simp [hv]
      · simp [hv]
    refine ⟨by rw [hmapname]; exact hnd, ?_, ?_⟩
    · obtain ⟨v, hv, hvname⟩ := List.any_eq_true.mp hex
      simp only [decide_eq_true_eq] at hvname
      exact List.mem_map.mpr ⟨v, hv, by simp [hvname]⟩
    · intro v' hv' hne
      obtain ⟨v, hv, hfv⟩ := List.mem_map.mp hv'
      by_cases hvn : v.name = r.name
      · rw [if_pos hvn] at hfv
        exact absurd (hfv ▸ rfl) hne
      · rw [if_neg hvn] at hfv
        exact hfv ▸ hv
  · rw [if_neg hex]
    have hnot : r.name ∉ store.map VoteRow.name := by
      intro hmem
      obtain ⟨v, hv, hvn⟩ := List.mem_map.mp hmem
      exact hex (List.any_eq_true.mpr ⟨v, hv, by simp [hvn]⟩)
    refine ⟨?_, by simp, ?_⟩
    · rw [List.map_append]
      rw [List.nodup_append]
      refine ⟨hnd, by simp, ?_⟩
      intro a ha hb
      simp only [List.map_cons, List.map_nil, List.mem_singleton] at hb
      exact hnot (hb ▸ ha)
    · intro v hv hne
      rcases List.mem_append.mp hv with h | h
      · exact h
      · simp only [List.mem_singleton] at h
        exact absurd (h ▸ rfl) hne

/-- Every row produced by the insert loop of `bulk_upsert_availability`
carries the imported day. -/
lemma validated_entries_day (day : String) (mapping : List (String × List String)) :
    ∀ e ∈ validated_entries day mapping, e.day = day := by
  unfold validated_entries
  suffices h : ∀ (m : List (String × List String)) (acc : List AvailRow),
      (∀ e ∈ acc, e.day = day) →
      ∀ e ∈ m.foldl
        (fun acc p =>
          if p.1 ∈ ALL_COURTS then
            acc ++ (p.2.filter (fun s => s ≠ "")).map (fun s => (⟨day, p.1, s⟩ : AvailRow))
          else acc)
        acc, e.day = day by
    exact h mapping [] (by simp)
  intro m
  induction m with
  | nil => intro acc hacc e he; exact hacc e he
  | cons p ps ih =>
    intro acc hacc e he
    rw [List.foldl_cons] at he
    refine ih _ ?_ e he
    intro e' he'
    by_cases hp : p.1 ∈ ALL_COURTS
    · rw [if_pos hp] at he'
      rcases List.mem_append.mp he' with h | h
      · exact hacc e' h
      · obtain ⟨s, _, hs⟩ := List.mem_map.mp h
        exact hs ▸ rfl
    · rw [if_neg hp] at he'
      exact hacc e' he'

lemma mem_insertSet (l : List String) (s x : String) :
    x ∈ insertSet l s ↔ x ∈ l ∨ x = s := by
  unfold insertSet
  by_cases h : s ∈ l
  · rw [if_pos h]
    constructor
    · exact fun hx => Or.inl hx
    · rintro (hx | rfl)
      · exact hx
      · exact h
  · rw [if_neg h]
    simp

lemma insertSet_nodup (l : List String) (s : String) (h : l.Nodup) :
    (insertSet l s).Nodup := by
  unfold insertSet
  by_cases hs : s ∈ l
  · rwa [if_pos hs]
  · rw [if_neg hs, List.nodup_append]
    refine ⟨h, by simp, ?_⟩
    intro a ha hb
    simp only [List.mem_singleton] at hb
    exact hs (hb ▸ ha)

lemma tallyStep_eq (s : List String × List Bucket) (r : VoteRow) :
    tallyStep s r = (playerStep s.1 r, bucketStep s.2 r) := by
  unfold tallyStep playerStep bucketStep
  by_cases h : trimStr r.name = "" <;> simp [h]

/-- The single row loop of `tally_with_names` splits into independent folds
for `unique_players` and `buckets`. -/
lemma foldl_tallyStep (st : List VoteRow) (p : List String) (b : List Bucket) :
    st.foldl tallyStep (p, b) = (st.foldl playerStep p, st.foldl bucketStep b) := by
  induction st generalizing p b with
  | nil => rfl
  | cons r rs ih =>
    rw [List.foldl_cons, tallyStep_eq, List.foldl_cons, List.foldl_cons]
    exact ih _ _

lemma players_fold_nodup (st : List VoteRow) (p : List String) (h : p.Nodup) :
    (st.foldl playerStep p).Nodup := by
  induction st generalizing p with
  | nil => simpa
  | cons r rs ih =>
    rw [List.foldl_cons]
    refine ih _ ?_
    unfold playerStep
    by_cases hr : trimStr r.name = ""
    · rwa [if_pos hr]
    · rw [if_neg hr]
      exact insertSet_nodup _ _ h

lemma mem_players_fold (st : List VoteRow) (p : List String) (x : String) :
    x ∈ st.foldl playerStep p ↔
      x ∈ p ∨ ∃ r ∈ st, trimStr r.name ≠ "" ∧ x = toLowerStr (trimStr r.name) := by
  induction st generalizing p with
  | nil => simp
  | cons r rs ih =>
    rw [List.foldl_cons, ih]
    unfold playerStep
    rw [List.exists_mem_cons_iff]
    by_cases hr : trimStr r.name = ""
    · rw [if_pos hr]
      simp [hr]
    · rw [if_neg hr, mem_insertSet]
      simp only [hr, ne_eq, not_false_iff, true_and]
      tauto

/-- `len(unique_players)` counts the distinct lower-cased trimmed names of
the rows (assuming every stored name is nonempty after trimming). -/
lemma players_length_eq (st : List VoteRow)
    (h : ∀ r ∈ st, trimStr r.name ≠ "") :
    (st.foldl playerStep []).length =
      (st.map (fun r => toLowerStr (trimStr r.name))).dedup.length := by
  have hnd : (st.foldl playerStep []).Nodup := players_fold_nodup st [] (by simp)
  have hperm : List.Perm (st.foldl playerStep [])
      ((st.map (fun r => toLowerStr (trimStr r.name))).dedup) := by
    rw [List.perm_ext_iff_of_nodup hnd (List.nodup_dedup _)]
    intro a
    rw [mem_players_fold, List.mem_dedup, List.mem_map]
    simp only [List.not_mem_nil, false_or]
    constructor
    · rintro ⟨r, hr, _, rfl⟩
      exact ⟨r, hr, rfl⟩
    · rintro ⟨r, hr, rfl⟩
      exact ⟨r, hr, h r hr, rfl⟩
  exact hperm.length_eq

lemma charLE_total (a b : List Char) : charLE a b = true ∨ charLE b a = true := by
  induction a generalizing b with
  | nil => left; rfl
  | cons x xs ih =>
    cases b with
    | nil => right; rfl
    | cons y ys =>
      by_cases h1 : x.toNat < y.toNat
      · left; simp [charLE, h1]
      · by_cases h2 : y.toNat < x.toNat
        · right; simp [charLE, h2]
        · rcases ih ys with h | h
          · left; simpa [charLE, h1, h2] using h
          · right; simpa [charLE, h1, h2] using h

lemma charLE_trans (a b c : List Char) (h1 : charLE a b = true) (h2 : charLE b c = true) :
    charLE a c = true := by
  induction a generalizing b c with
  | nil => rfl
  | cons x xs ih =>
    cases b with
    | nil => simp [charLE] at h1
    | cons y ys =>
      cases c with
      | nil => simp [charLE] at h2
      | cons z zs =>
        simp only [charLE] at h1 h2 ⊢
        split_ifs at h1 h2 ⊢ <;>
          first
            | rfl
            | omega
            | exact h1
            | exact h2
            | exact ih ys zs h1 h2

instance : IsTotal String (fun a b => strLE a b = true) :=
  ⟨fun a b => charLE_total a.data b.data⟩

instance : IsTrans String (fun a b => strLE a b = true) :=
  ⟨fun a b c => charLE_trans a.data b.data c.data⟩

lemma sortStrings_sorted (l : List String) :
    (sortStrings l).Sorted (fun a b => strLE a b = true) :=
  List.sorted_insertionSort _ l

lemma sortStrings_nodup (l : List String) (h : l.Nodup) : (sortStrings l).Nodup :=
  (List.perm_insertionSort _ l).symm.nodup h

/-- The key structure of the nested availability dict: the outer keys are
exactly `DAYS` and every inner key list is exactly `ALL_COURTS`. -/
def availKeysWF (res : AvailTimes) : Prop :=
  res.map Prod.fst = DAYS ∧ ∀ p ∈ res, p.2.map Prod.fst = ALL_COURTS

lemma initAvail_wf : availKeysWF initAvail := by
  constructor
  · decide
  · decide

lemma updateAvail_wf (res : AvailTimes) (d c s : String) (h : availKeysWF res) :
    availKeysWF (updateAvail res d c s) := by
  constructor
  · unfold updateAvail
    rw [List.map_map, ← h.1]
    refine List.map_congr_left ?_
    intro p _
    by_cases hp : p.1 = d <;> simp [hp]
  · intro p hp
    obtain ⟨q, hq, hfq⟩ := List.mem_map.mp hp
    by_cases hqd : q.1 = d
    · rw [if_pos hqd] at hfq
      rw [← hfq]
      dsimp only
      rw [List.map_map, ← h.2 q hq]
      refine List.map_congr_left ?_
      intro w _
      by_cases hw : w.1 = c <;> simp [hw]
    · rw [if_neg hqd] at hfq
      rw [← hfq]
      exact h.2 q hq

/-- On a row whose day or court is outside the enumerated sets, the loop
body of `get_availability_times` changes nothing. -/
lemma updateAvail_id (res : AvailTimes) (d c s : String) (h : availKeysWF res)
    (hbad : d ∉ DAYS ∨ c ∉ ALL_COURTS) : updateAvail res d c s = res := by
  unfold updateAvail
  rcases hbad with hd | hc
  · have hne : ∀ p ∈ res, p.1 ≠ d := by
      intro p hp he
      exact hd (he ▸ (h.1 ▸ List.mem_map_of_mem Prod.fst hp))
    rw [show res.map (fun p =>
        if p.1 = d then
          (p.1, p.2.map (fun q => if q.1 = c then (q.1, insertSet q.2 s) else q))
        else p) = res.map id from List.map_congr_left ?_, List.map_id]
    intro p hp
    rw [if_neg (hne p hp)]
    rfl
  · have hinner : ∀ p ∈ res, ∀ q ∈ p.2, q.1 ≠ c := by
      intro p hp q hq he
      exact hc (he ▸ ((h.2 p hp) ▸ List.mem_map_of_mem Prod.fst hq))
    rw [show res.map (fun p =>
        if p.1 = d then
          (p.1, p.2.map (fun q => if q.1 = c then (q.1, insertSet q.2 s) else q))
        else p) = res.map id from List.map_congr_left ?_, List.map_id]
    intro p hp
    by_cases hpd : p.1 = d
    · rw [if_pos hpd]
      have : p.2.map (fun q => if q.1 = c then (q.1, insertSet q.2 s) else q) = p.2 := by
        rw [show p.2.map (fun q => if q.1 = c then (q.1, insertSet q.2 s) else q)
            = p.2.map id from List.map_congr_left ?_, List.map_id]
        intro q hq
        rw [if_neg (hinner p hp q hq)]
        rfl
      rw [this]
      exact Prod.mk.eta
    · rw [if_neg hpd]
      rfl

lemma availFold_wf (st : List AvailRow) (res : AvailTimes) (h : availKeysWF res) :
    availKeysWF (st.foldl availStep res) := by
  induction st generalizing res with
  | nil => simpa
  | cons r rs ih =>
    rw [List.foldl_cons]
    exact ih _ (updateAvail_wf _ _ _ _ h)

lemma availFold_slots_nodup (st : List AvailRow) (res : AvailTimes)
    (h : ∀ p ∈ res, ∀ q ∈ p.2, q.2.Nodup) :
    ∀ p ∈ st.foldl availStep res, ∀ q ∈ p.2, q.2.Nodup := by
  induction st generalizing res with
  | nil => exact h
  | cons r rs ih =>
    rw [List.foldl_cons]
    refine ih _ ?_
    intro p hp q hq
    obtain ⟨w, hw, hfw⟩ := List.mem_map.mp hp
    by_cases hwd : w.1 = r.day
    · rw [if_pos hwd] at hfw
      rw [← hfw] at hq
      dsimp only at hq
      obtain ⟨u, hu, hfu⟩ := List.mem_map.mp hq
      by_cases huc : u.1 = r.court
      · rw [if_pos huc] at hfu
        rw [← hfu]
        exact insertSet_nodup _ _ (h w hw u hu)
      · rw [if_neg huc] at hfu
        rw [← hfu]
        exact h w hw u hu
    · rw [if_neg hwd] at hfw
      rw [← hfw] at hq
      exact h w hw q hq

/-- Rows whose day or court is outside the enumerated sets are silently
ignored by the availability fold. -/
lemma availFold_filter (st : List AvailRow) (res : AvailTimes) (h : availKeysWF res) :
    st.foldl availStep res =
      (st.filter (fun r => r.day ∈ DAYS ∧ r.court ∈ ALL_COURTS)).foldl availStep res := by
  induction st generalizing res with
  | nil => rfl
  | cons r rs ih =>
    rw [List.foldl_cons]
    by_cases hv : r.day ∈ DAYS ∧ r.court ∈ ALL_COURTS
    · rw [List.filter_cons_of_pos (by simpa using hv), List.foldl_cons]
      exact ih _ (updateAvail_wf _ _ _ _ h)
    · rw [List.filter_cons_of_neg (by simpa using hv)]
      rw [show availStep res r = res from updateAvail_id _ _ _ _ h (not_and_or.mp hv)]
      exact ih res h

lemma availability_keys (st : List AvailRow) :
    (get_availability_times st).map Prod.fst = DAYS := by
  unfold get_availability_times
  rw [List.map_map]
  have hwf := availFold_wf st initAvail initAvail_wf
  rw [← hwf.1]
  exact List.map_congr_left (fun p _ => rfl)

lemma availability_inner_keys (st : List AvailRow) :
    ∀ p ∈ get_availability_times st, p.2.map Prod.fst = ALL_COURTS := by
  unfold get_availability_times
  intro p hp
  obtain ⟨q, hq, hfq⟩ := List.mem_map.mp hp
  have hwf := availFold_wf st initAvail initAvail_wf
  rw [← hfq]
  dsimp only
  rw [List.map_map, ← hwf.2 q hq]
  exact List.map_congr_left (fun w _ => rfl)

lemma availability_slots_nodup (st : List AvailRow) :
    ∀ p ∈ get_availability_times st, ∀ q ∈ p.2, q.2.Nodup := by
  unfold get_availability_times
  intro p hp q hq
  obtain ⟨w, hw, hfw⟩ := List.mem_map.mp hp
  rw [← hfw] at hq
  dsimp only at hq
  obtain ⟨u, hu, hfu⟩ := List.mem_map.mp hq
  rw [← hfu]
  dsimp only
  exact sortStrings_nodup _
    (availFold_slots_nodup st initAvail (by decide) w hw u hu)

lemma availability_slots_sorted (st : List AvailRow) :
    ∀ p ∈ get_availability_times st, ∀ q ∈ p.2,
      q.2.Sorted (fun a b => strLE a b = true) := by
  unfold get_availability_times
  intro p hp q hq
  obtain ⟨w, _, hfw⟩ := List.mem_map.mp hp
  rw [← hfw] at hq
  dsimp only at hq
  obtain ⟨u, _, hfu⟩ := List.mem_map.mp hq
  rw [← hfu]
  exact sortStrings_sorted _

lemma availability_drop_invalid (st : List AvailRow) :
    get_availability_times st =
      get_availability_times (st.filter (fun r => r.day ∈ DAYS ∧ r.court ∈ ALL_COURTS)) := by
  unfold get_availability_times
  rw [availFold_filter st initAvail initAvail_wf]

lemma pref_rank_injOn :
    ∀ c1 ∈ ALL_COURTS, ∀ c2 ∈ ALL_COURTS, pref_rank c1 = pref_rank c2 → c1 = c2 := by
  decide

lemma addVote_map_fst (bs : List Bucket) (key : String × String) (nm : String) :
    (addVote bs key nm).map Prod.fst =
      if key ∈ bs.map Prod.fst then bs.map Prod.fst
      else bs.map Prod.fst ++ [key] := by
  induction bs with
  | nil => simp [addVote]
  | cons b rest ih =>
    by_cases hb : b.1 = key
    · simp [addVote, hb]
    · have hkb : ¬key = b.1 := fun he => hb he.symm
      by_cases hmem : key ∈ rest.map Prod.fst
      · simp [addVote, hb, ih, hmem, hkb]
      · simp [addVote, hb, ih, hmem, hkb]

/-- The bucket fold keeps the `(day, court)` keys distinct. -/
lemma bucketStep_fold_keys_nodup (st : List VoteRow) (b : List Bucket)
    (h : (b.map Prod.fst).Nodup) :
    ((st.foldl bucketStep b).map Prod.fst).Nodup := by
  induction st generalizing b with
  | nil => exact h
  | cons r rs ih =>
    rw [List.foldl_cons]
    refine ih _ ?_
    unfold bucketStep
    by_cases hr : trimStr r.name = ""
    · rwa [if_pos hr]
    · rw [if_neg hr, addVote_map_fst]
      by_cases hm : (r.day, r.court) ∈ b.map Prod.fst
      · rwa [if_pos hm]
      · rw [if_neg hm, List.nodup_append]
        refine ⟨h, by simp, ?_⟩
        intro k hk hk'
        simp only [List.mem_singleton] at hk'
        exact hm (hk' ▸ hk)

/-- Every bucket key comes from a stored row, hence is valid whenever every
stored row is. -/
lemma bucketStep_fold_keys_valid (st : List VoteRow) (b : List Bucket)
    (hb : ∀ k ∈ b.map Prod.fst, k.1 ∈ DAYS ∧ k.2 ∈ ALL_COURTS)
    (hst : ∀ r ∈ st, r.day ∈ DAYS ∧ r.court ∈ ALL_COURTS) :
    ∀ k ∈ (st.foldl bucketStep b).map Prod.fst, k.1 ∈ DAYS ∧ k.2 ∈ ALL_COURTS := by
  induction st generalizing b with
  | nil => exact hb
  | cons r rs ih =>
    rw [List.foldl_cons]
    refine ih _ ?_ (fun r' hr' => hst r' (List.mem_cons_of_mem _ hr'))
    intro k hk
    unfold bucketStep at hk
    by_cases hr : trimStr r.name = ""
    · rw [if_pos hr] at hk
      exact hb k hk
    · rw [if_neg hr, addVote_map_fst] at hk
      by_cases hm : (r.day, r.court) ∈ b.map Prod.fst
      · rw [if_pos hm] at hk
        exact hb k hk
      · rw [if_neg hm] at hk
        rcases List.mem_append.mp hk with h | h
        · exact hb k h
        · simp only [List.mem_singleton] at h
          subst h
          exact hst r (List.mem_cons_self _ _)

/-- The composite strict order claimed for the ranked bucket list: strictly
more votes first; among equal counts the lower preference rank first; among
equal counts and equal preference rank, Saturday before Sunday. -/
def choiceLT (a b : ChoiceInfo) : Prop :=
  b.votes < a.votes ∨
    (a.votes = b.votes ∧
      (pref_rank a.court < pref_rank b.court ∨
        (pref_rank a.court = pref_rank b.court ∧ a.day = "Saturday" ∧ b.day = "Sunday")))

/-- The sorted bucket list of the tally is strictly ordered by the
composite order, provided the bucket keys are distinct and valid. -/
lemma ranked_pairwise (B : List Bucket)
    (hnd : (B.map Prod.fst).Nodup)
    (hvalid : ∀ k ∈ B.map Prod.fst, k.1 ∈ DAYS ∧ k.2 ∈ ALL_COURTS) :
    ((List.insertionSort bucketLE B).map mkChoice).Pairwise choiceLT := by
  rw [List.pairwise_map]
  have hsorted : (List.insertionSort bucketLE B).Pairwise bucketLE :=
    List.sorted_insertionSort bucketLE B
  have hperm : List.Perm (List.insertionSort bucketLE B) B :=
    List.perm_insertionSort bucketLE B
  have hkeysnd : ((List.insertionSort bucketLE B).map Prod.fst).Nodup :=
    (hperm.map Prod.fst).symm.nodup hnd
  have hvalid' : ∀ k ∈ (List.insertionSort bucketLE B).map Prod.fst,
      k.1 ∈ DAYS ∧ k.2 ∈ ALL_COURTS := by
    intro k hk
    exact hvalid k ((hperm.map Prod.fst).mem_iff.mp hk)
  have hne : (List.insertionSort bucketLE B).Pairwise (fun a b : Bucket => a.1 ≠ b.1) :=
    List.pairwise_map.mp hkeysnd
  refine List.Pairwise.imp_of_mem ?_ (hsorted.and hne)
  rintro a b ha hb ⟨hab, hne'⟩
  have hva := hvalid' a.1 (List.mem_map_of_mem Prod.fst ha)
  have hvb := hvalid' b.1 (List.mem_map_of_mem Prod.fst hb)
  unfold bucketLE at hab
  unfold choiceLT mkChoice
  dsimp only
  rcases hab with hlt | ⟨heq, hp⟩
  · exact Or.inl hlt
  · refine Or.inr ⟨heq, ?_⟩
    rcases hp with hplt | ⟨hpe, hdle⟩
    · exact Or.inl hplt
    · refine Or.inr ⟨hpe, ?_⟩
      have hceq : a.1.2 = b.1.2 := pref_rank_injOn a.1.2 hva.2 b.1.2 hvb.2 hpe
      have hdne : a.1.1 ≠ b.1.1 := by
        intro hde
        exact hne' (Prod.ext_iff.mpr ⟨hde, hceq⟩)
      have ha1 := hva.1
      have hb1 := hvb.1
      simp only [DAYS, List.mem_cons, List.mem_singleton, List.not_mem_nil,
        or_false] at ha1 hb1
      rcases ha1 with ha1 | ha1 <;> rcases hb1 with hb1 | hb1
      · exact absurd (ha1.trans hb1.symm) hdne
      · exact ⟨ha1, hb1⟩
      · exfalso
        rw [ha1, hb1] at hdle
        simp [day_rank] at hdle
      · exact absurd (ha1.trans hb1.symm) hdne

/-! ### Claim theorems -/

/-- Claim C2 (counterexample): two submissions whose names agree after
trimming and case folding but differ in case produce two live rows in the
vote store, because the SQL primary key compares the stripped name exactly;
the second submission does not replace the first (both days survive). -/
theorem vote_identity_counterexample :
    ((home_post (home_post [] "Sam" "Saturday" "Court 1" "t1").1
        "sam" "Sunday" "Court 2" "t2").1.length = 2) ∧
    ((home_post (home_post [] "Sam" "Saturday" "Court 1" "t1").1
        "sam" "Sunday" "Court 2" "t2").1.map (fun v => toLowerStr (trimStr v.name))
      = ["sam", "sam"]) ∧
    ((home_post (home_post [] "Sam" "Saturday" "Court 1" "t1").1
        "sam" "Sunday" "Court 2" "t2").1.map (fun v => v.day)
      = ["Saturday", "Sunday"]) := by
  decide

/-- Claim C2 (amended): the identity key of the vote store is the trimmed
name compared exactly (case sensitively).  A valid submission whose trimmed
name equals a stored name replaces that row (day, court and timestamp),
never adds a second entry, and name uniqueness of the store is preserved;
rows under other names are untouched. -/
theorem vote_identity_amended (store : List VoteRow) (rawName day court ts : String)
    (hd : day ∈ DAYS) (hc : court ∈ ALL_COURTS) (hn : trimStr rawName ≠ "")
    (hnd : (store.map VoteRow.name).Nodup) :
    ((home_post store rawName day court ts).1.map VoteRow.name).Nodup ∧
    (⟨trimStr rawName, day, court, ts⟩ : VoteRow) ∈ (home_post store rawName day court ts).1 ∧
    ∀ v ∈ (home_post store rawName day court ts).1, v.name ≠ trimStr rawName → v ∈ store := by
  have hcond : ¬(trimStr rawName = "" ∨ day ∉ DAYS ∨ court ∉ ALL_COURTS) := by
    push_neg
    exact ⟨hn, hd, hc⟩
  simp only [home_post]
  rw [if_neg hcond]
  exact upsertVote_spec store ⟨trimStr rawName, day, court, ts⟩ hnd

theorem vote_identity_amended_witness :
    ("Sunday" ∈ DAYS ∧ "Court 2" ∈ ALL_COURTS ∧ trimStr " Ann " ≠ "" ∧
      (([⟨"Ann", "Saturday", "Court 1", "t0"⟩, ⟨"Bob", "Saturday", "Court 1", "t0"⟩]
          : List VoteRow).map VoteRow.name).Nodup) ∧
    (((home_post [⟨"Ann", "Saturday", "Court 1", "t0"⟩, ⟨"Bob", "Saturday", "Court 1", "t0"⟩]
        " Ann " "Sunday" "Court 2" "t1").1.map VoteRow.name).Nodup ∧
      (⟨trimStr " Ann ", "Sunday", "Court 2", "t1"⟩ : VoteRow) ∈
        (home_post [⟨"Ann", "Saturday", "Court 1", "t0"⟩, ⟨"Bob", "Saturday", "Court 1", "t0"⟩]
          " Ann " "Sunday" "Court 2" "t1").1 ∧
      ∀ v ∈ (home_post [⟨"Ann", "Saturday", "Court 1", "t0"⟩, ⟨"Bob", "Saturday", "Court 1", "t0"⟩]
          " Ann " "Sunday" "Court 2" "t1").1,
        v.name ≠ trimStr " Ann " →
          v ∈ [⟨"Ann", "Saturday", "Court 1", "t0"⟩, ⟨"Bob", "Saturday", "Court 1", "t0"⟩]) :=
  ⟨⟨by decide, by decide, by decide, by decide⟩,
    vote_identity_amended _ " Ann " "Sunday" "Court 2" "t1"
      (by decide) (by decide) (by decide) (by decide)⟩

/-- Claim C5: for a day in `DAYS` and a court in `ALL_COURTS`, the booking
handoff redirects to the booking URL with `day` and `court` appended,
separated by `&` when the base URL already contains `?` and by `?`
otherwise; a stripped day or court outside the enumerated sets is rejected
with an error before any redirect to the booking site. -/
theorem book_court_spec (url : String) :
    (∀ day ∈ DAYS, ∀ court ∈ ALL_COURTS,
      book_court url day court =
        .redirectTo (url ++ (if containsChars url.data ['?'] then "&" else "?") ++
          "day=" ++ day ++ "&court=" ++ court)) ∧
    (∀ rawDay rawCourt, trimStr rawDay ∉ DAYS ∨ trimStr rawCourt ∉ ALL_COURTS →
      book_court url rawDay rawCourt = .errorResults) := by
  constructor
  · intro day hd court hc
    simp only [book_court]
    rw [trimStr_mem_DAYS day hd, trimStr_mem_ALL_COURTS court hc]
    rw [if_neg (by push_neg; exact ⟨hd, hc⟩)]
  · intro rawDay rawCourt h
    simp only [book_court]
    rw [if_pos h]

theorem book_court_spec_witness :
    ("Saturday" ∈ DAYS ∧ "Court 5" ∈ ALL_COURTS ∧
      (trimStr "Friday" ∉ DAYS ∨ trimStr "Court 5" ∉ ALL_COURTS)) ∧
    book_court "https://club.example/reserve?x=1" "Saturday" "Court 5" =
      .redirectTo ("https://club.example/reserve?x=1" ++
        (if containsChars "https://club.example/reserve?x=1".data ['?'] then "&" else "?") ++
        "day=" ++ "Saturday" ++ "&court=" ++ "Court 5") ∧
    book_court "https://club.example/reserve?x=1" "Friday" "Court 5" = .errorResults :=
  ⟨⟨by decide, by decide, Or.inl (by decide)⟩,
    (book_court_spec "https://club.example/reserve?x=1").1 "Saturday" (by decide)
      "Court 5" (by decide),
    (book_court_spec "https://club.example/reserve?x=1").2 "Friday" "Court 5"
      (Or.inl (by decide))⟩

/-- Claim C6: with a submitted PIN different from the configured PIN, the
vote reset and the availability clear leave the whole state (both tables)
exactly as it was. -/
theorem pin_gate_spec (resetPin pin : String) (st : AppState) (h : pin ≠ resetPin) :
    confirm_reset resetPin pin st = st ∧ admin_availability_clear resetPin pin st = st := by
  unfold confirm_reset admin_availability_clear
  rw [if_pos h, if_pos h]
  exact ⟨rfl, rfl⟩

theorem pin_gate_spec_witness :
    (("0000" : String) ≠ "1234") ∧
    (confirm_reset "1234" "0000"
        ⟨[⟨"Sam", "Saturday", "Court 1", "t"⟩], [⟨"Saturday", "Court 1", "9:00"⟩]⟩ =
      ⟨[⟨"Sam", "Saturday", "Court 1", "t"⟩], [⟨"Saturday", "Court 1", "9:00"⟩]⟩ ∧
    admin_availability_clear "1234" "0000"
        ⟨[⟨"Sam", "Saturday", "Court 1", "t"⟩], [⟨"Saturday", "Court 1", "9:00"⟩]⟩ =
      ⟨[⟨"Sam", "Saturday", "Court 1", "t"⟩], [⟨"Saturday", "Court 1", "9:00"⟩]⟩) :=
  ⟨by decide, pin_gate_spec "1234" "0000" _ (by decide)⟩

/-- Claim C7: a vote submission with an empty trimmed name, a day outside
`DAYS`, or a court outside `ALL_COURTS` flashes an error and redirects back
to the vote form, leaving the vote store unchanged. -/
theorem invalid_vote_spec (store : List VoteRow) (rawName day court ts : String)
    (h : trimStr rawName = "" ∨ day ∉ DAYS ∨ court ∉ ALL_COURTS) :
    home_post store rawName day court ts = (store, .errorHome) := by
  simp only [home_post]
  rw [if_pos h]

theorem invalid_vote_spec_witness :
    (trimStr "   " = "" ∨ "Saturday" ∉ DAYS ∨ "Court 1" ∉ ALL_COURTS) ∧
    home_post [⟨"Sam", "Saturday", "Court 1", "t"⟩] "   " "Saturday" "Court 1" "t2" =
      ([⟨"Sam", "Saturday", "Court 1", "t"⟩], .errorHome) :=
  ⟨Or.inl (by decide),
    invalid_vote_spec [⟨"Sam", "Saturday", "Court 1", "t"⟩] "   " "Saturday" "Court 1" "t2"
      (Or.inl (by decide))⟩

/-- Claim C9: for a valid day, the bulk re-import replaces that day with
exactly the validated entries of the mapping (courts in `ALL_COURTS`,
nonempty slots) and leaves every row of any other day unchanged. -/
theorem bulk_reimport_spec (st : List AvailRow) (day : String)
    (mapping : List (String × List String)) (hd : day ∈ DAYS) :
    ((bulk_upsert_availability st day mapping).filter (fun r => r.day = day) =
      validated_entries day mapping) ∧
    ((bulk_upsert_availability st day mapping).filter (fun r => r.day ≠ day) =
      st.filter (fun r => r.day ≠ day)) := by
  unfold bulk_upsert_availability
  rw [if_neg (by simpa using hd)]
  rw [List.filter_append, List.filter_append]
  constructor
  · have h1 : (st.filter (fun r => r.day ≠ day)).filter (fun r => r.day = day) = [] := by
      rw [List.filter_eq_nil_iff]
      intro r hr
      have := (List.mem_filter.mp hr).2
      simp only [decide_eq_true_eq] at this ⊢
      exact this
    have h2 : (validated_entries day mapping).filter (fun r => r.day = day) =
        validated_entries day mapping := by
      rw [List.filter_eq_self]
      intro r hr
      simpa using validated_entries_day day mapping r hr
    rw [h1, h2, List.nil_append]
  · have h1 : (st.filter (fun r => r.day ≠ day)).filter (fun r => r.day ≠ day) =
        st.filter (fun r => r.day ≠ day) := by
      rw [List.filter_eq_self]
      intro r hr
      exact (List.mem_filter.mp hr).2
    have h2 : (validated_entries day mapping).filter (fun r => r.day ≠ day) = [] := by
      rw [List.filter_eq_nil_iff]
      intro r hr
      have := validated_entries_day day mapping r hr
      simp [this]
    rw [h1, h2, List.append_nil]

theorem bulk_reimport_spec_witness :
    ("Sunday" ∈ DAYS) ∧
    (((bulk_upsert_availability
          [⟨"Saturday", "Court 1", "9:00"⟩, ⟨"Sunday", "Court 2", "10:00"⟩,
            ⟨"Weekday", "Court 9", "8:00"⟩]
          "Sunday" [("Court 3", ["11:00", "", "12:00"]), ("No Court", ["1:00"])]).filter
        (fun r => r.day = "Sunday") =
      validated_entries "Sunday" [("Court 3", ["11:00", "", "12:00"]), ("No Court", ["1:00"])]) ∧
    ((bulk_upsert_availability
          [⟨"Saturday", "Court 1", "9:00"⟩, ⟨"Sunday", "Court 2", "10:00"⟩,
            ⟨"Weekday", "Court 9", "8:00"⟩]
          "Sunday" [("Court 3", ["11:00", "", "12:00"]), ("No Court", ["1:00"])]).filter
        (fun r => r.day ≠ "Sunday") =
      ([⟨"Saturday", "Court 1", "9:00"⟩, ⟨"Sunday", "Court 2", "10:00"⟩,
          ⟨"Weekday", "Court 9", "8:00"⟩] : List AvailRow).filter (fun r => r.day ≠ "Sunday"))) :=
  ⟨by decide,
    bulk_reimport_spec
      [⟨"Saturday", "Court 1", "9:00"⟩, ⟨"Sunday", "Court 2", "10:00"⟩,
        ⟨"Weekday", "Court 9", "8:00"⟩]
      "Sunday" [("Court 3", ["11:00", "", "12:00"]), ("No Court", ["1:00"])] (by decide)⟩

/-- Claim C3: for every vote store whose rows all carry a nonempty trimmed
name (which is every store the application can write), `total_players` is
the number of distinct names after trimming and lower-casing, independent
of how many rows or re-votes each such name contributed. -/
theorem total_players_spec (st : List VoteRow) (h : ∀ r ∈ st, trimStr r.name ≠ "") :
    (tally_with_names st).total_players =
      (st.map (fun r => toLowerStr (trimStr r.name))).dedup.length := by
  simp only [tally_with_names, foldl_tallyStep]
  exact players_length_eq st h

theorem total_players_spec_witness :
    (∀ r ∈ ([⟨"Sam W.", "Saturday", "Court 1", "t1"⟩, ⟨" sam w. ", "Sunday", "Court 2", "t2"⟩,
        ⟨"Ann", "Sunday", "Court 2", "t3"⟩] : List VoteRow), trimStr r.name ≠ "") ∧
    (tally_with_names [⟨"Sam W.", "Saturday", "Court 1", "t1"⟩,
        ⟨" sam w. ", "Sunday", "Court 2", "t2"⟩,
        ⟨"Ann", "Sunday", "Court 2", "t3"⟩]).total_players =
      (([⟨"Sam W.", "Saturday", "Court 1", "t1"⟩, ⟨" sam w. ", "Sunday", "Court 2", "t2"⟩,
          ⟨"Ann", "Sunday", "Court 2", "t3"⟩] : List VoteRow).map
        (fun r => toLowerStr (trimStr r.name))).dedup.length :=
  ⟨by decide,
    total_players_spec
      [⟨"Sam W.", "Saturday", "Court 1", "t1"⟩, ⟨" sam w. ", "Sunday", "Court 2", "t2"⟩,
        ⟨"Ann", "Sunday", "Court 2", "t3"⟩] (by decide)⟩

/-- Claim C4: for every vote store whose rows all carry a nonempty trimmed
name, `booking_possible` is true exactly when the number of distinct
trimmed lower-cased voter names is at least 4 (hence false for 0 through 3
distinct voters and true at exactly 4). -/
theorem booking_possible_spec (st : List VoteRow) (h : ∀ r ∈ st, trimStr r.name ≠ "") :
    ((tally_with_names st).booking_possible = true ↔
      4 ≤ (st.map (fun r => toLowerStr (trimStr r.name))).dedup.length) := by
  simp only [tally_with_names, foldl_tallyStep]
  rw [decide_eq_true_iff]
  rw [players_length_eq st h]

theorem booking_possible_spec_witness :
    (∀ r ∈ ([⟨"alice", "Saturday", "Court 1", "t1"⟩, ⟨"Bob", "Saturday", "Court 1", "t2"⟩,
        ⟨"carol", "Sunday", "Court 2", "t3"⟩, ⟨"ALICE ", "Sunday", "Court 3", "t4"⟩,
        ⟨"dave", "Saturday", "Court 1", "t5"⟩] : List VoteRow), trimStr r.name ≠ "") ∧
    ((tally_with_names [⟨"alice", "Saturday", "Court 1", "t1"⟩,
        ⟨"Bob", "Saturday", "Court 1", "t2"⟩, ⟨"carol", "Sunday", "Court 2", "t3"⟩,
        ⟨"ALICE ", "Sunday", "Court 3", "t4"⟩,
        ⟨"dave", "Saturday", "Court 1", "t5"⟩]).booking_possible = true ↔
      4 ≤ (([⟨"alice", "Saturday", "Court 1", "t1"⟩, ⟨"Bob", "Saturday", "Court 1", "t2"⟩,
          ⟨"carol", "Sunday", "Court 2", "t3"⟩, ⟨"ALICE ", "Sunday", "Court 3", "t4"⟩,
          ⟨"dave", "Saturday", "Court 1", "t5"⟩] : List VoteRow).map
        (fun r => toLowerStr (trimStr r.name))).dedup.length) :=
  ⟨by decide,
    booking_possible_spec
      [⟨"alice", "Saturday", "Court 1", "t1"⟩, ⟨"Bob", "Saturday", "Court 1", "t2"⟩,
        ⟨"carol", "Sunday", "Court 2", "t3"⟩, ⟨"ALICE ", "Sunday", "Court 3", "t4"⟩,
        ⟨"dave", "Saturday", "Court 1", "t5"⟩] (by decide)⟩

/-- Claim C10: for every state of the availability table, the lookup
returns exactly the two enumerated days as outer keys, each mapping to
exactly the full court list as inner keys; every slot list is
duplicate-free and sorted in ascending string order; and rows whose day or
court is outside the enumerated sets contribute nothing to the result. -/
theorem availability_lookup_spec (st : List AvailRow) :
    ((get_availability_times st).map Prod.fst = DAYS) ∧
    List.Forall (fun p => p.2.map Prod.fst = ALL_COURTS) (get_availability_times st) ∧
    List.Forall
      (fun p => List.Forall
        (fun q => q.2.Nodup ∧ q.2.Sorted (fun a b => strLE a b = true)) p.2)
      (get_availability_times st) ∧
    get_availability_times st =
      get_availability_times (st.filter (fun r => r.day ∈ DAYS ∧ r.court ∈ ALL_COURTS)) := by
  refine ⟨availability_keys st, ?_, ?_, availability_drop_invalid st⟩
  · rw [List.forall_iff_forall_mem]
    exact availability_inner_keys st
  · rw [List.forall_iff_forall_mem]
    intro p hp
    rw [List.forall_iff_forall_mem]
    intro q hq
    exact ⟨availability_slots_nodup st p hp q hq, availability_slots_sorted st p hp q hq⟩

/-- Claim C8: after any sequence of the exposed availability operations
(manual slot add, JSON import, clear) starting from the empty table, the
lookup result represents no (day, court, slot) triple more than once: the
outer day keys are distinct, each inner court key list is distinct, and
every slot list is duplicate-free. -/
theorem availability_dedup_spec (ops : List AvailOp) :
    ((get_availability_times (ops.foldl apply_avail_op [])).map Prod.fst).Nodup ∧
    List.Forall (fun p => (p.2.map Prod.fst).Nodup)
      (get_availability_times (ops.foldl apply_avail_op [])) ∧
    List.Forall (fun p => List.Forall (fun q => q.2.Nodup) p.2)
      (get_availability_times (ops.foldl apply_avail_op [])) := by
  refine ⟨?_, ?_, ?_⟩
  · rw [availability_keys]
    decide
  · rw [List.forall_iff_forall_mem]
    intro p hp
    rw [availability_inner_keys _ p hp]
    decide
  · rw [List.forall_iff_forall_mem]
    intro p hp
    rw [List.forall_iff_forall_mem]
    intro q hq
    exact availability_slots_nodup _ p hp q hq

/-- Claim C1: on any vote store whose rows are valid (day in `DAYS`, court
in `ALL_COURTS`, as every stored row is), the tally ranks its buckets in
the exact composite order of `choiceLT` (strictly more votes first, then
lower preference rank, then Saturday before Sunday), and the reported top
choice is the first bucket of that sorted list. -/
theorem tally_ranking_spec (st : List VoteRow)
    (h : ∀ r ∈ st, r.day ∈ DAYS ∧ r.court ∈ ALL_COURTS) :
    (tally_with_names st).counts.Pairwise choiceLT ∧
    (tally_with_names st).top_choice = (tally_with_names st).counts.head? := by
  simp only [tally_with_names, foldl_tallyStep]
  constructor
  · exact ranked_pairwise (st.foldl bucketStep [])
      (bucketStep_fold_keys_nodup st [] (by simp))
      (bucketStep_fold_keys_valid st [] (by simp) h)
  · exact (List.head?_map _ _).symm

theorem tally_ranking_spec_witness :
    (∀ r ∈ ([⟨"Sam", "Saturday", "Court 5", "t1"⟩, ⟨" sam ", "Sunday", "Court 1", "t2"⟩,
        ⟨"Ann", "Sunday", "Court 1", "t3"⟩, ⟨"bob", "Saturday", "Court 5", "t4"⟩,
        ⟨"Cleo", "Saturday", "Other", "t5"⟩] : List VoteRow),
      r.day ∈ DAYS ∧ r.court ∈ ALL_COURTS) ∧
    ((tally_with_names [⟨"Sam", "Saturday", "Court 5", "t1"⟩,
        ⟨" sam ", "Sunday", "Court 1", "t2"⟩, ⟨"Ann", "Sunday", "Court 1", "t3"⟩,
        ⟨"bob", "Saturday", "Court 5", "t4"⟩,
        ⟨"Cleo", "Saturday", "Other", "t5"⟩]).counts.Pairwise choiceLT ∧
      (tally_with_names [⟨"Sam", "Saturday", "Court 5", "t1"⟩,
        ⟨" sam ", "Sunday", "Court 1", "t2"⟩, ⟨"Ann", "Sunday", "Court 1", "t3"⟩,
        ⟨"bob", "Saturday", "Court 5", "t4"⟩,
        ⟨"Cleo", "Saturday", "Other", "t5"⟩]).top_choice =
      (tally_with_names [⟨"Sam", "Saturday", "Court 5", "t1"⟩,
        ⟨" sam ", "Sunday", "Court 1", "t2"⟩, ⟨"Ann", "Sunday", "Court 1", "t3"⟩,
        ⟨"bob", "Saturday", "Court 5", "t4"⟩,
        ⟨"Cleo", "Saturday", "Other", "t5"⟩]).counts.head?) :=
  ⟨by decide,
    tally_ranking_spec
      [⟨"Sam", "Saturday", "Court 5", "t1"⟩, ⟨" sam ", "Sunday", "Court 1", "t2"⟩,
        ⟨"Ann", "Sunday", "Court 1", "t3"⟩, ⟨"bob", "Saturday", "Court 5", "t4"⟩,
        ⟨"Cleo", "Saturday", "Other", "t5"⟩] (by decide)⟩

end CourtCaptain
